import Mathlib

/-!
Verification of the log parser, decode cascade and collection store of the
StarResonanceAutoMod repository.

The log parser is a shallow embedding of `parse_log_file` and `_parse_block`
from `gui.py`.  Text is modelled as `List Char`; a file is the list of its
lines (the Python code iterates over the file's lines, i.e. splits on the
newline character; text mode has already normalised `\r\n` and `\r` to `\n`,
so splitting on `\n` is the whole line structure).  Python's `str.strip`
removes Unicode whitespace and `\d` matches any Unicode decimal digit; the
embedding uses the ASCII subsets (`Char.isWhitespace`, `Char.isDigit`),
which coincide with Python on every ASCII/CJK input considered here.
-/

namespace StarRes

/-- Python `str.strip`: drop whitespace from both ends of a line. -/
def stripChars (l : List Char) : List Char :=
  ((l.dropWhile Char.isWhitespace).reverse.dropWhile Char.isWhitespace).reverse

/-- Split a character list on the newline character (Python line splitting). -/
def splitNl : List Char → List (List Char)
  | [] => [[]]
  | '\n' :: rest => [] :: splitNl rest
  | c :: rest =>
    match splitNl rest with
    | [] => [[c]]
    | l :: ls => (c :: l) :: ls

/-- Python `"\n".join`: interleave lines with newline characters. -/
def joinNl : List (List Char) → List Char
  | [] => []
  | [l] => l
  | l :: ls => l ++ '\n' :: joinNl ls

/-- Banner prefix filtered by `parse_log_file`: fifty `=` characters. -/
def eq50 : List Char := List.replicate 50 '='

/-- Report-title prefix filtered by `parse_log_file`. -/
def titleMark : List Char := "模组搭配优化 -".toList

/-- Statistics marker: `parse_log_file` stops reading at such a line. -/
def statMark : List Char := "统计信息".toList

/-- Literal part of the block-header pattern before the rank digits. -/
def hdrPre : List Char := "=== 第".toList

/-- Literal part of the block-header pattern after the rank digits. -/
def hdrSuf : List Char := "名搭配 ===".toList

/-- Marker for the total-attribute line in a block. -/
def totalMark : List Char := "总属性值".toList

/-- Marker for the combat-power line in a block. -/
def powerMark : List Char := "战斗力".toList

/-- Marker opening the module-list section of a block. -/
def modListMark : List Char := "模组列表".toList

/-- Marker opening the attribute-distribution section of a block. -/
def attrDistMark : List Char := "属性分布".toList

/-- Pre-filter pass of `parse_log_file` (gui.py lines 129-137): strip each
line; skip banner and title lines; stop at a statistics line; keep the
remaining non-blank stripped lines. -/
def preFilter : List (List Char) → List (List Char)
  | [] => []
  | l :: rest =>
    if eq50.isPrefixOf (stripChars l) || titleMark.isPrefixOf (stripChars l) then
      preFilter rest
    else if statMark.isPrefixOf (stripChars l) then []
    else if (stripChars l).isEmpty then preFilter rest
    else stripChars l :: preFilter rest

/-- Drop a literal prefix from a character list, or fail. -/
def dropLit : List Char → List Char → Option (List Char)
  | [], s => some s
  | _ :: _, [] => none
  | p :: ps, c :: cs => if c = p then dropLit ps cs else none

/-- Match the regex `=== 第(\d+)名搭配 ===` at the start of the input,
returning the captured digits and the remainder.  The digit run is maximal;
since the pattern continues with a non-digit, this agrees with the
backtracking semantics of the Python regex. -/
def matchAt (s : List Char) : Option (List Char × List Char) :=
  match dropLit hdrPre s with
  | none => none
  | some s1 =>
    let ds := s1.takeWhile Char.isDigit
    let s2 := s1.dropWhile Char.isDigit
    if ds.isEmpty then none
    else
      match dropLit hdrSuf s2 with
      | none => none
      | some s3 => some (ds, s3)

/-- Leftmost match of the header pattern: the text before the match, the
captured digits, and the text after the match. -/
def findMatch : List Char → Option (List Char × List Char × List Char)
  | [] => none
  | c :: cs =>
    match matchAt (c :: cs) with
    | some (ds, rest) => some ([], ds, rest)
    | none =>
      match findMatch cs with
      | some (b, ds, rest) => some (c :: b, ds, rest)
      | none => none

/-- Fuelled worker for `reSplit`; one unit of fuel per match consumed. -/
def reSplitF : Nat → List Char → List (List Char)
  | 0, s => [s]
  | fuel + 1, s =>
    match findMatch s with
    | none => [s]
    | some (b, ds, rest) => b :: ds :: reSplitF fuel rest

/-- Python `re.split(r"=== 第(\d+)名搭配 ===", text)`: the pieces of the
text between matches, interleaved with the captured digit groups. -/
def reSplit (s : List Char) : List (List Char) :=
  reSplitF (s.length + 1) s

/-- One parsed combination block: the dict built by `_parse_block`
(keys `total`, `power`, `modules`, `attrs`). -/
structure Combo where
  total : List Char
  power : List Char
  modules : List (List Char)
  attrs : List (List Char)
deriving DecidableEq

/-- The record `_parse_block` returns when no marker line is present. -/
def emptyCombo : Combo := ⟨[], [], [], []⟩

/-- State of the `_parse_block` scan: the outer loop, or the inner loop that
collects module lines. -/
inductive PMode
  | seek
  | inMods

/-- Line scan of `_parse_block` (gui.py lines 156-175).  In `seek` the
stripped line is tested against the four markers; the module loop collects
stripped lines until a raw line starts with the attribute-distribution
marker, and that line is then re-examined by the outer loop; the
attribute-distribution branch consumes every remaining line and stops. -/
def parseBlockGo : PMode → List (List Char) → Combo → Combo
  | _, [], acc => acc
  | PMode.seek, l :: rest, acc =>
    if totalMark.isPrefixOf (stripChars l) then
      parseBlockGo PMode.seek rest ⟨stripChars l, acc.power, acc.modules, acc.attrs⟩
    else if powerMark.isPrefixOf (stripChars l) then
      parseBlockGo PMode.seek rest ⟨acc.total, stripChars l, acc.modules, acc.attrs⟩
    else if modListMark.isPrefixOf (stripChars l) then
      parseBlockGo PMode.inMods rest acc
    else if attrDistMark.isPrefixOf (stripChars l) then
      ⟨acc.total, acc.power, acc.modules, acc.attrs ++ rest.map stripChars⟩
    else parseBlockGo PMode.seek rest acc
  | PMode.inMods, l :: rest, acc =>
    if attrDistMark.isPrefixOf l then
      if totalMark.isPrefixOf (stripChars l) then
        parseBlockGo PMode.seek rest ⟨stripChars l, acc.power, acc.modules, acc.attrs⟩
      else if powerMark.isPrefixOf (stripChars l) then
        parseBlockGo PMode.seek rest ⟨acc.total, stripChars l, acc.modules, acc.attrs⟩
      else if modListMark.isPrefixOf (stripChars l) then
        parseBlockGo PMode.inMods rest acc
      else if attrDistMark.isPrefixOf (stripChars l) then
        ⟨acc.total, acc.power, acc.modules, acc.attrs ++ rest.map stripChars⟩
      else parseBlockGo PMode.seek rest acc
    else
      parseBlockGo PMode.inMods rest
        ⟨acc.total, acc.power, acc.modules ++ [stripChars l], acc.attrs⟩

/-- `_parse_block` (gui.py lines 149-176): split the block into lines, keep
the non-blank ones, and scan them. -/
def parse_block (block : List Char) : Combo :=
  parseBlockGo PMode.seek
    ((splitNl block).filter (fun l => !(stripChars l).isEmpty)) emptyCombo

/-- The loop of gui.py lines 141-143 over `parts[1:]`: each captured group is
followed by its block (`parts[i + 1]`); a missing block is Python's
`IndexError`, modelled as `Except.error`. -/
def combosOfRest : List (List Char) → Except Unit (List Combo)
  | [] => Except.ok []
  | [_] => Except.error ()
  | _ :: b :: rest => Except.map (fun cs => parse_block b :: cs) (combosOfRest rest)

/-- Build the combination list from the pieces returned by the split. -/
def combosFromParts (parts : List (List Char)) : Except Unit (List Combo) :=
  combosOfRest parts.tail

/-- `parse_log_file` on the list of lines of the log file: pre-filter, join,
split on the header pattern, and parse each block; the surrounding
`try/except` of gui.py lines 127-145 returns `[]` on any error. -/
def parseLogLines (ls : List (List Char)) : List Combo :=
  match combosFromParts (reSplit (joinNl (preFilter ls))) with
  | Except.ok cs => cs
  | Except.error _ => []

/-- `parse_log_file` (gui.py lines 124-146) on the whole file text. -/
def parse_log_file (text : String) : List Combo :=
  parseLogLines (splitNl text.toList)

/-- The captured digit groups: `parts[i]` for `i` in `range(1, len, 2)`.
The source captures these ranks in the split but never stores them in the
returned dicts. -/
def oddParts : List (List Char) → List (List Char)
  | _ :: ds :: rest => ds :: oddParts rest
  | _ => []

/-- Captured header ranks of a log, in source order. -/
def headerCaps (ls : List (List Char)) : List (List Char) :=
  oddParts (reSplit (joinNl (preFilter ls)))

/-- Python `int` on a run of decimal digits. -/
def decToNat (ds : List Char) : Nat :=
  ds.foldl (fun a c => a * 10 + (c.toNat - 48)) 0

end StarRes

namespace StarRes

/-! ### The decode cascade of `load_vdata_from_file` (run_local_vdata.py)

The cascade order and fallthrough logic are embedded from the source.  The
format primitives it calls (protobuf binary/JSON parsing of the generated
`SyncContainerData`/`CharSerialize` schemas, UTF-8, base64, `json.loads`)
live outside the provided sources, so they are passed in as parameters; a
concrete spec-modelled instantiation follows below. -/

/-- Modelled from the spec: the wrapper schema `SyncContainerData`, an
envelope whose optional inner-state field `VData` is the direct record. -/
structure Wrapper (α : Type) where
  vData : Option α
deriving DecidableEq

/-- Modelled from the spec: the format primitives the cascade calls, absent
from the provided sources (protobuf generated code, `base64`, `json`).
`none` stands for the exception the corresponding Python call raises. -/
structure DecoderOps (α J : Type) where
  parseWrapperBin : List Nat → Option (Wrapper α)
  parseDirectBin : List Nat → Option α
  utf8Decode : List Nat → Option (List Char)
  b64Decode : List Char → Option (List Nat)
  jsonLoads : List Char → Option J
  jsonAsDirect : J → Option α
  jsonAsWrapper : J → Option (Wrapper α)

/-- The three raise sites of `load_vdata_from_file`: the UTF-8 failure at
line 63, the JSON failure at line 78, and the final failure at line 97. -/
inductive DecodeError
  | notText
  | badJson
  | unrecognized
deriving DecidableEq

/-- The decode cascade of `load_vdata_from_file` (run_local_vdata.py lines
35-97): binary wrapper with inner state, binary direct, UTF-8 text, strict
base64 of the direct binary, JSON as direct then as wrapper. -/
def load_vdata_from_file (ops : DecoderOps α J) (data : List Nat) :
    Except DecodeError α :=
  let step2 :=
    match ops.parseDirectBin data with
    | some cs => Except.ok cs
    | none =>
      match ops.utf8Decode data with
      | none => Except.error DecodeError.notText
      | some raw =>
        let text := stripChars raw
        let step5 :=
          match ops.jsonLoads text with
          | none => Except.error DecodeError.badJson
          | some obj =>
            match ops.jsonAsDirect obj with
            | some cs => Except.ok cs
            | none =>
              match ops.jsonAsWrapper obj with
              | some scd =>
                match scd.vData with
                | some v => Except.ok v
                | none => Except.error DecodeError.unrecognized
              | none => Except.error DecodeError.unrecognized
        match ops.b64Decode text with
        | some rawB =>
          match ops.parseDirectBin rawB with
          | some cs => Except.ok cs
          | none => step5
        | none => step5
  match ops.parseWrapperBin data with
  | some scd =>
    match scd.vData with
    | some v => Except.ok v
    | none => step2
  | none => step2

/-! ### Concrete spec-modelled instantiation of the primitives -/

/-- Modelled from the spec: the direct schema `CharSerialize` (player
character state); its fields are not visible in the provided sources, so it
is modelled as two numeric attributes. -/
structure CharSerialize where
  charId : Nat
  level : Nat
deriving DecidableEq

/-- Decimal digit to character. -/
def digitChar : Nat → Char
  | 0 => '0' | 1 => '1' | 2 => '2' | 3 => '3' | 4 => '4'
  | 5 => '5' | 6 => '6' | 7 => '7' | 8 => '8' | _ => '9'

/-- Fuelled decimal printer. -/
def natToDecAux : Nat → Nat → List Char
  | 0, _ => []
  | fuel + 1, n =>
    if n < 10 then [digitChar n]
    else natToDecAux fuel (n / 10) ++ [digitChar (n % 10)]

/-- Decimal representation of a natural number. -/
def natToDec (n : Nat) : List Char := natToDecAux (n + 1) n

/-- Opening brace character. -/
def lbraceChar : Char := Char.ofNat 123

/-- Closing brace character. -/
def rbraceChar : Char := Char.ofNat 125

/-- Characters of the first field name of the canonical JSON encoding. -/
def keyA : List Char := ['c', 'h', 'a', 'r', 'I', 'd']

/-- Characters of the second field name of the canonical JSON encoding. -/
def keyB : List Char := ['l', 'e', 'v', 'e', 'l']

/-- Modelled from the spec: the canonical JSON encoding of the direct
record, a flat object with the two field names in fixed order. -/
def jsonEncode (r : CharSerialize) : List Char :=
  lbraceChar :: '"' :: keyA ++ '"' :: ':' :: ' ' :: natToDec r.charId ++
    ',' :: ' ' :: '"' :: keyB ++ '"' :: ':' :: ' ' :: natToDec r.level ++ [rbraceChar]

/-- Fuelled parser for the comma-separated fields of a flat JSON object of
numbers, up to the closing brace. -/
def parseFields : Nat → List Char → Option (List (List Char × Nat))
  | 0, _ => none
  | fuel + 1, text =>
    match text with
    | '"' :: rest =>
      match rest.dropWhile (fun c => c != '"') with
      | '"' :: ':' :: ' ' :: r2 =>
        if (r2.takeWhile Char.isDigit).isEmpty then none
        else
          match r2.dropWhile Char.isDigit with
          | [c] =>
            if c = rbraceChar then
              some [(rest.takeWhile (fun c => c != '"'),
                decToNat (r2.takeWhile Char.isDigit))]
            else none
          | ',' :: ' ' :: r4 =>
            (parseFields fuel r4).map
              (fun fs => (rest.takeWhile (fun c => c != '"'),
                decToNat (r2.takeWhile Char.isDigit)) :: fs)
          | _ => none
      | _ => none
    | _ => none

/-- Modelled from the spec: `json.loads`, restricted to the flat
object-of-numbers shape that the canonical encoding produces. -/
def jsonLoadsC (text : List Char) : Option (List (List Char × Nat)) :=
  match text with
  | [] => none
  | c :: rest => if c = lbraceChar then parseFields (rest.length + 1) rest else none

/-- Modelled from the spec: interpreting parsed JSON as the direct schema
(protobuf `json_format.Parse` into `CharSerialize`). -/
def jsonAsDirectC (fs : List (List Char × Nat)) : Option CharSerialize :=
  match fs with
  | [(k1, a), (k2, b)] =>
    if k1 = keyA ∧ k2 = keyB then some ⟨a, b⟩ else none
  | _ => none

/-- Modelled from the spec: interpreting parsed JSON as the wrapper schema;
the flat object-of-numbers shape never carries a nested inner state. -/
def jsonAsWrapperC (_ : List (List Char × Nat)) : Option (Wrapper CharSerialize) :=
  none

/-- Modelled from the spec: the binary direct-schema parse (protobuf wire
format abstracted as a tag byte and the two field values). -/
def parseDirectBinC : List Nat → Option CharSerialize
  | [] => none
  | t :: rest =>
    if t = 10 then
      match rest with
      | [a, b] => some ⟨a, b⟩
      | _ => none
    else none

/-- Modelled from the spec: the binary wrapper-schema parse; the inner-state
field is optional and its presence is explicit. -/
def parseWrapperBinC : List Nat → Option (Wrapper CharSerialize)
  | [] => none
  | t :: rest =>
    if t = 18 then
      match rest with
      | [] => some ⟨none⟩
      | _ => (parseDirectBinC rest).map (fun cs => ⟨some cs⟩)
    else none

/-- ASCII bytes of a character list. -/
def asciiBytes (s : List Char) : List Nat := s.map Char.toNat

/-- Modelled from the spec: UTF-8 decoding, restricted to its ASCII subset
(every text this development feeds through it is ASCII). -/
def asciiDecode (bs : List Nat) : Option (List Char) :=
  if bs.all (fun b => b < 128) then some (bs.map Char.ofNat) else none

/-- Value of a base64 alphabet character. -/
def b64Val (c : Char) : Option Nat :=
  let n := c.toNat
  if 65 ≤ n && n ≤ 90 then some (n - 65)
  else if 97 ≤ n && n ≤ 122 then some (n - 97 + 26)
  else if 48 ≤ n && n ≤ 57 then some (n - 48 + 52)
  else if n = 43 then some 62
  else if n = 47 then some 63
  else none

/-- Modelled from the spec: strict base64 (`validate=True`): four-character
groups, non-alphabet characters rejected, padding only at the end. -/
def b64Quads : List Char → Option (List Nat)
  | [] => some []
  | a :: b :: c :: d :: rest =>
    match b64Val a, b64Val b with
    | some va, some vb =>
      if d = '=' && rest.isEmpty then
        if c = '=' then some [va * 4 + vb / 16]
        else
          match b64Val c with
          | some vc => some [va * 4 + vb / 16, vb % 16 * 16 + vc / 4]
          | none => none
      else
        match b64Val c, b64Val d with
        | some vc, some vd =>
          (b64Quads rest).map
            (fun bs => (va * 4 + vb / 16) :: (vb % 16 * 16 + vc / 4) :: (vc % 4 * 64 + vd) :: bs)
        | _, _ => none
    | _, _ => none
  | _ => none

/-- The cascade instantiated with the concrete spec-modelled primitives. -/
def concreteOps : DecoderOps CharSerialize (List (List Char × Nat)) :=
  ⟨parseWrapperBinC, parseDirectBinC, asciiDecode, b64Quads,
    jsonLoadsC, jsonAsDirectC, jsonAsWrapperC⟩

/-! ### The collection store

No collection-store code is present in the provided sources; the whole
component is modelled from spec section 4.3. -/

/-- Result reported by a toggle. -/
inductive NewState
  | favorited
  | unfavorited
deriving DecidableEq

/-- Modelled from the spec: `key_of`, the deterministic canonical
serialization of a record (fixed field order, exact text bytes); the store
keys entries by it. -/
def key_of (r : Combo) : List Char :=
  "attrs=".toList ++ joinNl r.attrs ++ "|modules=".toList ++ joinNl r.modules ++
    "|power=".toList ++ r.power ++ "|total=".toList ++ r.total

/-- Modelled from the spec: the persistence surface, one entry per key. -/
abbrev Store : Type := List (List Char × Combo)

/-- Modelled from the spec: `toggle` deletes the entry at `key_of record`
when present (reporting `unfavorited`), otherwise persists the record at
that key (reporting `favorited`). -/
def toggle (s : Store) (r : Combo) : Store × NewState :=
  let k := key_of r
  if (List.any s fun e => e.1 == k) then
    (List.filter (fun e => e.1 != k) s, NewState.unfavorited)
  else
    ((k, r) :: s, NewState.favorited)

/-- Modelled from the spec: `list_all` returns every persisted record. -/
def list_all (s : Store) : List Combo := List.map Prod.snd s

end StarRes

namespace StarRes

/-! ### Concrete inputs used by the claim theorems and witnesses -/

/-- The concrete log text of spec section 8: a banner of fifty `=`, the
report title, one full block, the statistics marker and trailing junk. -/
def c1Text : String :=
  String.mk (List.replicate 50 '=') ++
  "\n模组搭配优化 - 示例\n=== 第1名搭配 ===\n总属性值: 120\n战斗力: 9999\n模组列表:\n帽子A\n手套B\n属性分布:\n智力加持: 12\n统计信息\nignored trailing block"

/-- A log with two identical blocks under different header ranks. -/
def c2Input : List (List Char) :=
  ["=== 第1名搭配 ===".toList, "x".toList, "=== 第2名搭配 ===".toList, "x".toList]

/-- Fifty `=` characters followed by other text: not a line of repeated
`=`, yet dropped by the pre-filter. -/
def c7Line : List Char := List.replicate 50 '=' ++ "hello".toList

/-- Ops whose wrapper parser accepts every buffer with inner state `7` and
whose other primitives always fail. -/
def c3Ops : DecoderOps Nat Unit :=
  ⟨fun _ => some ⟨some 7⟩, fun _ => none, fun _ => none, fun _ => none,
    fun _ => none, fun _ => none, fun _ => none⟩

/-- Modelled from the spec: a wrapper-schema binary parser that accepts a
byte buffer which is not valid UTF-8 (as real protobuf binaries are), with
inner state `42`. -/
def c4Ops : DecoderOps Nat Unit :=
  ⟨fun _ => some ⟨some 42⟩, fun _ => none, fun _ => none, fun _ => none,
    fun _ => none, fun _ => none, fun _ => none⟩

/-- Ops on which every attempt fails. -/
def c4WitnessOps : DecoderOps Nat Unit :=
  ⟨fun _ => none, fun _ => none, fun _ => none, fun _ => none,
    fun _ => none, fun _ => none, fun _ => none⟩

/-- A concrete combination record. -/
def c9Rec : Combo := ⟨"总属性值: 1".toList, "战斗力: 2".toList, [], []⟩

/-- A store that already holds `c9Rec` under its key. -/
def c9Store : Store := [(key_of c9Rec, c9Rec)]

end StarRes

namespace StarRes

/-! ### Helper lemmas -/

theorem dropLit_of_append (p s : List Char) : dropLit p (p ++ s) = some s := by
  induction p with
  | nil => rfl
  | cons c ps ih => simp [dropLit, ih]

theorem dropLit_length {p s r : List Char} (h : dropLit p s = some r) :
    s.length = p.length + r.length := by
  induction p generalizing s with
  | nil => cases s <;> simp_all [dropLit]
  | cons c ps ih =>
    cases s with
    | nil => simp [dropLit] at h
    | cons d ds =>
      simp only [dropLit] at h
      by_cases hd : d = c
      · simp only [hd, if_pos rfl] at h
        have := ih h
        simp only [List.length_cons, this]
        omega
      · simp [hd] at h

theorem matchAt_length {s ds rest : List Char} (h : matchAt s = some (ds, rest)) :
    rest.length < s.length := by
  unfold matchAt at h
  cases h1 : dropLit hdrPre s with
  | none => rw [h1] at h; exact absurd h (by simp)
  | some s1 =>
    rw [h1] at h
    simp only at h
    by_cases he : (s1.takeWhile Char.isDigit).isEmpty
    · rw [if_pos he] at h; exact absurd h (by simp)
    · rw [if_neg he] at h
      cases h2 : dropLit hdrSuf (s1.dropWhile Char.isDigit) with
      | none => rw [h2] at h; exact absurd h (by simp)
      | some s3 =>
        rw [h2] at h
        simp only [Option.some.injEq, Prod.mk.injEq] at h
        obtain ⟨hds, hrest⟩ := h
        have l1 := dropLit_length h1
        have l2 := dropLit_length h2
        have l3 : (s1.takeWhile Char.isDigit).length + (s1.dropWhile Char.isDigit).length
            = s1.length := by
          rw [← List.length_append, List.takeWhile_append_dropWhile]
        have hep : (s1.takeWhile Char.isDigit).length ≠ 0 := by
          intro hz
          exact he (by simpa [List.isEmpty_iff, List.length_eq_zero] using hz)
        have hp : hdrPre.length = 5 := by decide
        have hs : hdrSuf.length = 7 := by decide
        subst hrest
        omega

theorem findMatch_length : ∀ {s b ds rest : List Char},
    findMatch s = some (b, ds, rest) → rest.length < s.length := by
  intro s
  induction s with
  | nil => intro b ds rest h; simp [findMatch] at h
  | cons c cs ih =>
    intro b ds rest h
    unfold findMatch at h
    cases hm : matchAt (c :: cs) with
    | some p =>
      rw [hm] at h
      obtain ⟨ds0, rest0⟩ := p
      simp only [Option.some.injEq, Prod.mk.injEq] at h
      obtain ⟨-, -, hr⟩ := h
      subst hr
      exact matchAt_length hm
    | none =>
      rw [hm] at h
      cases hf : findMatch cs with
      | none => rw [hf] at h; exact absurd h (by simp)
      | some q =>
        rw [hf] at h
        obtain ⟨b0, ds0, rest0⟩ := q
        simp only [Option.some.injEq, Prod.mk.injEq] at h
        obtain ⟨-, -, hr⟩ := h
        subst hr
        exact Nat.lt_trans (ih hf) (by simp)

theorem reSplitF_length_odd (fuel : Nat) : ∀ s : List Char,
    (reSplitF fuel s).length % 2 = 1 := by
  induction fuel with
  | zero => intro s; rfl
  | succ f ih =>
    intro s
    unfold reSplitF
    cases h : findMatch s with
    | none => rfl
    | some p =>
      obtain ⟨b, ds, rest⟩ := p
      simp only [List.length_cons]
      have := ih rest
      omega
      
end StarRes

namespace StarRes

theorem reSplit_length_odd (s : List Char) : (reSplit s).length % 2 = 1 :=
  reSplitF_length_odd (s.length + 1) s

theorem combosOfRest_ok_of_even : ∀ l : List (List Char), l.length % 2 = 0 →
    ∃ cs : List Combo, combosOfRest l = Except.ok cs ∧ 2 * cs.length = l.length
  | [], _ => ⟨[], rfl, rfl⟩
  | [_], h => by simp at h
  | a :: b :: r, h => by
    have hr : r.length % 2 = 0 := by
      simp only [List.length_cons] at h
      omega
    obtain ⟨cs, hcs, hl⟩ := combosOfRest_ok_of_even r hr
    refine ⟨parse_block b :: cs, ?_, ?_⟩
    · simp [combosOfRest, hcs, Except.map]
    · simp only [List.length_cons]
      omega

theorem oddParts_length : ∀ l : List (List Char), l.length % 2 = 1 →
    2 * (oddParts l).length + 1 = l.length
  | [], h => by simp at h
  | [x], _ => by simp [oddParts]
  | a :: b :: r, h => by
    have hr : r.length % 2 = 1 := by
      simp only [List.length_cons] at h
      omega
    have := oddParts_length r hr
    simp only [oddParts, List.length_cons]
    omega

/-! ### Claim theorems for the log parser -/

/-- C1: the concrete log text of spec section 8 parses to exactly one
record, with total line `总属性值: 120`, power line `战斗力: 9999`, modules
`帽子A`, `手套B` and attribute distribution `智力加持: 12`; everything after
the `统计信息` line is ignored.  The rank 1 is the captured header number of
the unique block (the source captures it in the split; the returned dict
carries no rank field). -/
theorem example_log_parses :
    parse_log_file c1Text =
      [⟨"总属性值: 120".toList, "战斗力: 9999".toList,
        ["帽子A".toList, "手套B".toList], ["智力加持: 12".toList]⟩] ∧
    headerCaps (splitNl c1Text.toList) = [['1']] := by
  decide

/-- C5: for every input (any line list, however malformed), the parse
pipeline of `parse_log_file` never reaches the error branch guarded by its
`try/except`: the split always provides a block after each captured rank,
and the full record list is returned. -/
theorem parse_never_fails (ls : List (List Char)) :
    combosFromParts (reSplit (joinNl (preFilter ls))) =
      Except.ok (parseLogLines ls) := by
  obtain ⟨cs, hcs, -⟩ :=
    combosOfRest_ok_of_even (reSplit (joinNl (preFilter ls))).tail (by
      have h1 := reSplit_length_odd (joinNl (preFilter ls))
      have h2 := List.length_tail (reSplit (joinNl (preFilter ls)))
      omega)
  unfold parseLogLines combosFromParts
  rw [hcs]

/-- C2 is false as stated: the two blocks of `c2Input` have captured header
ranks 1 and 2 but produce literally identical records, so no function of
the produced record (in particular no rank field) can return the captured
rank of its block. -/
theorem rank_not_carried :
    ¬ ∃ rankOf : Combo → Nat,
        ∀ (ls : List (List Char)) (rs : List Combo) (ks : List (List Char)),
          parseLogLines ls = rs → headerCaps ls = ks →
          ∀ (i : Nat) (h1 : i < rs.length) (h2 : i < ks.length),
            rankOf (rs.get ⟨i, h1⟩) = decToNat (ks.get ⟨i, h2⟩) := by
  rintro ⟨f, hf⟩
  have h0 := hf c2Input [emptyCombo, emptyCombo] [['1'], ['2']]
    (by decide) (by decide) 0 (by decide) (by decide)
  have h1 := hf c2Input [emptyCombo, emptyCombo] [['1'], ['2']]
    (by decide) (by decide) 1 (by decide) (by decide)
  have e1 : decToNat ['1'] = 1 := by decide
  have e2 : decToNat ['2'] = 2 := by decide
  have h0' : f emptyCombo = 1 := by
    rw [← e1]
    exact h0
  have h1' : f emptyCombo = 2 := by
    rw [← e2]
    exact h1
  omega

/-- C2 (amended): the split captures one rank per block header and the
parse produces exactly one record per captured header, in source order,
neither renumbered nor deduplicated; the captured rank itself is discarded
rather than stored on the record. -/
theorem records_match_headers (ls : List (List Char)) :
    (parseLogLines ls).length = (headerCaps ls).length := by
  have hodd := reSplit_length_odd (joinNl (preFilter ls))
  have ht := List.length_tail (reSplit (joinNl (preFilter ls)))
  obtain ⟨cs, hcs, hlen⟩ :=
    combosOfRest_ok_of_even (reSplit (joinNl (preFilter ls))).tail (by omega)
  have hp : parseLogLines ls = cs := by
    unfold parseLogLines combosFromParts
    rw [hcs]
  have ho := oddParts_length (reSplit (joinNl (preFilter ls))) hodd
  rw [hp]
  unfold headerCaps
  omega

end StarRes

namespace StarRes

/-! ### Claim theorems for the decode cascade -/

/-- C3: whenever the byte buffer parses as the binary wrapper message and
the optional inner-state field is present, the cascade returns exactly that
inner state; the wrapper attempt takes precedence over everything after it
(the result does not depend on any later primitive). -/
theorem wrapper_precedence {α J : Type} (ops : DecoderOps α J) (data : List Nat)
    (scd : Wrapper α) (v : α) (h1 : ops.parseWrapperBin data = some scd)
    (h2 : scd.vData = some v) :
    load_vdata_from_file ops data = Except.ok v := by
  obtain ⟨vd⟩ := scd
  have hv : vd = some v := h2
  subst hv
  unfold load_vdata_from_file
  rw [h1]

/-- Witness for the wrapper-precedence theorem at a concrete instance. -/
theorem wrapper_precedence_witness :
    c3Ops.parseWrapperBin [0, 1] = some ⟨some 7⟩ ∧
    (Wrapper.vData (⟨some 7⟩ : Wrapper Nat)) = some 7 ∧
    load_vdata_from_file c3Ops [0, 1] = Except.ok 7 :=
  ⟨rfl, rfl, wrapper_precedence c3Ops [0, 1] ⟨some 7⟩ 7 rfl rfl⟩

/-- C4 is false as stated: `[255]` is not valid UTF-8 (the modelled UTF-8
decoder rejects it), yet with a wrapper parser that accepts it — as the
real protobuf parser accepts many non-UTF-8 buffers — the cascade succeeds
instead of failing with the not-text error, because both binary attempts
run before the UTF-8 decode. -/
theorem non_utf8_can_decode :
    c4Ops.utf8Decode [255] = none ∧
    load_vdata_from_file c4Ops [255] = Except.ok 42 ∧
    load_vdata_from_file c4Ops [255] ≠ Except.error DecodeError.notText := by
  refine ⟨rfl, rfl, ?_⟩
  intro h
  simp [load_vdata_from_file, c4Ops] at h

/-- C4 (amended): when the wrapper attempt does not return (parse failure
or absent inner state), the direct binary attempt fails, and the buffer is
not valid UTF-8, the cascade fails with the not-text error; the base64 and
JSON primitives are arbitrary here, so they are never consulted. -/
theorem not_text_when_binary_fails {α J : Type}
    (pw : List Nat → Option (Wrapper α)) (pd : List Nat → Option α)
    (u8 : List Nat → Option (List Char)) (b64 : List Char → Option (List Nat))
    (jl : List Char → Option J) (jd : J → Option α) (jw : J → Option (Wrapper α))
    (data : List Nat)
    (h1 : ∀ scd, pw data = some scd → scd.vData = none)
    (h2 : pd data = none) (h3 : u8 data = none) :
    load_vdata_from_file ⟨pw, pd, u8, b64, jl, jd, jw⟩ data =
      Except.error DecodeError.notText := by
  unfold load_vdata_from_file
  simp only
  cases hw : pw data with
  | none => simp [hw, h2, h3]
  | some scd =>
    have hv := h1 scd hw
    simp [hw, hv, h2, h3]

/-- Witness for the amended not-text theorem at a concrete instance. -/
theorem not_text_when_binary_fails_witness :
    load_vdata_from_file c4WitnessOps [255] = Except.error DecodeError.notText :=
  not_text_when_binary_fails (fun _ => none) (fun _ => none) (fun _ => none)
    (fun _ => none) (fun _ => none) (fun _ => none) (fun _ => (none : Option (Wrapper Nat)))
    [255] (fun scd h => by cases h) rfl rfl

/-! ### Claim theorems for the pre-filter -/

/-- C7 is false as stated: `c7Line` (fifty `=` followed by `hello`) does
not consist of repeated `=` characters and does not start with the title
prefix, yet the pre-filter drops it, because the source tests
`startswith("=" * 50)` rather than "consists of `=`". -/
theorem banner_drop_not_only_repeated_eq :
    stripChars c7Line = c7Line ∧
    (¬ ∃ n, c7Line = List.replicate n '=') ∧
    titleMark.isPrefixOf c7Line = false ∧
    preFilter [c7Line] = [] := by
  refine ⟨by decide, ?_, by decide, by decide⟩
  rintro ⟨n, hn⟩
  have hm : 'h' ∈ c7Line := by decide
  rw [hn] at hm
  have := List.eq_of_mem_replicate hm
  exact absurd this (by decide)

/-- C7 (amended): the pre-filter drops as banner lines exactly the lines
whose stripped form starts with fifty `=` characters (whatever follows) or
with the title prefix; a line matching neither prefix is kept whenever it
is non-blank and not a statistics line. -/
theorem banner_filter_characterization (l : List Char) (rest : List (List Char)) :
    ((eq50.isPrefixOf (stripChars l) || titleMark.isPrefixOf (stripChars l)) = true →
      preFilter (l :: rest) = preFilter rest) ∧
    ((eq50.isPrefixOf (stripChars l) || titleMark.isPrefixOf (stripChars l)) = false →
      statMark.isPrefixOf (stripChars l) = false →
      (stripChars l).isEmpty = false →
      preFilter (l :: rest) = stripChars l :: preFilter rest) := by
  constructor
  · intro h
    simp [preFilter, h]
  · intro h1 h2 h3
    simp [preFilter, h1, h2, h3]

/-- Witness for the banner characterization: a dropped banner line and a
kept content line. -/
theorem banner_filter_characterization_witness :
    preFilter [c7Line] = [] ∧
    preFilter ["帽子A".toList] = ["帽子A".toList] := by
  constructor
  · exact (banner_filter_characterization c7Line []).1 (by decide)
  · exact (banner_filter_characterization "帽子A".toList []).2
      (by decide) (by decide) (by decide)

/-! ### Claim theorems for the collection store -/

/-- C9 is false as stated: on a store that already holds the record, the
first toggle of the pair reports unfavorited, not favorited. -/
theorem toggle_pair_on_present_record :
    (toggle c9Store c9Rec).2 = NewState.unfavorited ∧
    NewState.unfavorited ≠ NewState.favorited := by
  decide

/-- C9 (amended): on a store with no entry at the record key, toggling
twice reports favorited then unfavorited and restores the exact store, so
the listing as well. -/
theorem toggle_twice_roundtrip (s : Store) (r : Combo)
    (h : ∀ e ∈ s, e.1 ≠ key_of r) :
    (toggle s r).2 = NewState.favorited ∧
    (toggle (toggle s r).1 r).2 = NewState.unfavorited ∧
    (toggle (toggle s r).1 r).1 = s ∧
    list_all (toggle (toggle s r).1 r).1 = list_all s := by
  have hany : (List.any s fun e => e.1 == key_of r) = false := by
    rw [List.any_eq_false]
    intro e he
    simp only [beq_iff_eq]
    exact h e he
  have hfilter : List.filter (fun e => e.1 != key_of r) s = s := by
    rw [List.filter_eq_self]
    intro e he
    simpa using h e he
  have h1 : toggle s r = ((key_of r, r) :: s, NewState.favorited) := by
    simp [toggle, hany]
  have h2 : toggle ((key_of r, r) :: s) r = (s, NewState.unfavorited) := by
    simp [toggle, hfilter]
  have g1 : (toggle s r).1 = (key_of r, r) :: s := by rw [h1]
  refine ⟨by rw [h1], ?_, ?_, ?_⟩
  · rw [g1, h2]
  · rw [g1, h2]
  · rw [g1, h2]

/-- Witness for the toggle round trip on the empty store. -/
theorem toggle_twice_roundtrip_witness :
    (toggle ([] : Store) c9Rec).2 = NewState.favorited ∧
    (toggle (toggle ([] : Store) c9Rec).1 c9Rec).2 = NewState.unfavorited ∧
    (toggle (toggle ([] : Store) c9Rec).1 c9Rec).1 = [] ∧
    list_all (toggle (toggle ([] : Store) c9Rec).1 c9Rec).1 = list_all [] :=
  toggle_twice_roundtrip [] c9Rec (fun e he => absurd he (List.not_mem_nil e))

end StarRes

namespace StarRes

/-! ### Truncation at the statistics marker -/

theorem marks_disjoint {s : List Char} (h : statMark.isPrefixOf s = true) :
    (eq50.isPrefixOf s || titleMark.isPrefixOf s) = false := by
  cases s with
  | nil => exact absurd h (by decide)
  | cons c t =>
    have hc : c = '统' := by
      have hs : statMark = '统' :: "计信息".toList := by decide
      rw [hs] at h
      simp only [List.isPrefixOf, Bool.and_eq_true, beq_iff_eq] at h
      exact h.1.symm
    subst hc
    have he : eq50 = '=' :: List.replicate 49 '=' := by decide
    have ht : titleMark = '模' :: "组搭配优化 -".toList := by decide
    rw [he, ht]
    simp [List.isPrefixOf]

theorem preFilter_break {l : List Char}
    (hstat : statMark.isPrefixOf (stripChars l) = true) :
    ∀ ls rest, preFilter (ls ++ l :: rest) = preFilter ls
  | [], rest => by
    simp [preFilter, marks_disjoint hstat, hstat]
  | c :: ls2, rest => by
    have ih := preFilter_break hstat ls2 rest
    simp only [List.cons_append, preFilter]
    split_ifs
    · exact ih
    · rfl
    · exact ih
    · rw [show ls2.append (l :: rest) = ls2 ++ l :: rest from rfl, ih]

theorem reSplit_of_no_match {t : List Char} (h : findMatch t = none) :
    reSplit t = [t] := by
  unfold reSplit reSplitF
  rw [h]

theorem parseLogLines_eq_nil_of_no_match {ls : List (List Char)}
    (h : findMatch (joinNl (preFilter ls)) = none) :
    parseLogLines ls = [] := by
  unfold parseLogLines combosFromParts
  rw [reSplit_of_no_match h]
  rfl

/-- C6: once a line starting with the statistics marker is reached, every
later line is discarded, further blocks included: the parse result equals
that of the log truncated right after the marker line; in particular, when
no block header survives before the marker, the whole log parses to the
empty sequence. -/
theorem stats_marker_truncates (ls rest : List (List Char)) (l : List Char)
    (hstat : statMark.isPrefixOf (stripChars l) = true) :
    parseLogLines (ls ++ l :: rest) = parseLogLines (ls ++ [l]) ∧
    (findMatch (joinNl (preFilter ls)) = none →
      parseLogLines (ls ++ l :: rest) = []) := by
  have hb1 := preFilter_break hstat ls rest
  have hb2 := preFilter_break hstat ls ([] : List (List Char))
  constructor
  · unfold parseLogLines combosFromParts
    rw [hb1, hb2]
  · intro hnm
    have hls : parseLogLines (ls ++ l :: rest) = parseLogLines ls := by
      unfold parseLogLines combosFromParts
      rw [hb1]
    rw [hls]
    exact parseLogLines_eq_nil_of_no_match hnm

/-- Witness for the truncation theorem: a statistics line followed by a
whole further block yields the empty result when nothing precedes it but
plain text. -/
theorem stats_marker_truncates_witness :
    parseLogLines (["abc".toList] ++ "统计信息xyz".toList ::
      ["=== 第1名搭配 ===".toList, "总属性值: 5".toList]) = [] :=
  (stats_marker_truncates ["abc".toList]
    ["=== 第1名搭配 ===".toList, "总属性值: 5".toList]
    "统计信息xyz".toList (by decide)).2 (by decide)

end StarRes

namespace StarRes

/-! ### Extension lemmas for the header matcher

No character of the header pattern is a newline, so a match never crosses
the newline that separates two joined lines; these lemmas make that
precise. -/

theorem dropLit_some_append {p u r : List Char} (h : dropLit p u = some r)
    (v : List Char) : dropLit p (u ++ v) = some (r ++ v) := by
  induction p generalizing u with
  | nil =>
    simp only [dropLit, Option.some.injEq] at h ⊢
    rw [h]
  | cons c ps ih =>
    cases u with
    | nil => simp [dropLit] at h
    | cons d du =>
      simp only [List.cons_append, dropLit] at h ⊢
      by_cases hd : d = c
      · rw [if_pos hd] at h ⊢
        exact ih h
      · rw [if_neg hd] at h
        exact absurd h (by simp)

theorem dropLit_none_ext {p u : List Char} (hp : ∀ c ∈ p, c ≠ '\n')
    (h : dropLit p u = none) (w : List Char) :
    dropLit p (u ++ '\n' :: w) = none := by
  induction p generalizing u with
  | nil => simp [dropLit] at h
  | cons c ps ih =>
    cases u with
    | nil =>
      have hc : c ≠ '\n' := hp c (List.mem_cons_self c ps)
      simp only [List.nil_append, dropLit]
      rw [if_neg (fun hh => hc hh.symm)]
    | cons d du =>
      simp only [List.cons_append, dropLit] at h ⊢
      by_cases hd : d = c
      · rw [if_pos hd] at h ⊢
        exact ih (fun x hx => hp x (List.mem_cons_of_mem c hx)) h
      · rw [if_neg hd]

theorem dropLit_eq_append {p s r : List Char} (h : dropLit p s = some r) :
    s = p ++ r := by
  induction p generalizing s with
  | nil =>
    simp only [dropLit, Option.some.injEq] at h
    rw [h]
    rfl
  | cons c ps ih =>
    cases s with
    | nil => simp [dropLit] at h
    | cons d ds =>
      simp only [dropLit] at h
      by_cases hd : d = c
      · rw [if_pos hd] at h
        subst hd
        simp [ih h]
      · rw [if_neg hd] at h
        exact absurd h (by simp)

theorem takeWhile_ext_of_stop {p : Char → Bool} {u : List Char} {d : Char}
    {t : List Char} (h : u.dropWhile p = d :: t) (v : List Char) :
    (u ++ v).takeWhile p = u.takeWhile p ∧
    (u ++ v).dropWhile p = (d :: t) ++ v := by
  induction u with
  | nil => simp [List.dropWhile] at h
  | cons a au ih =>
    by_cases ha : p a
    · have h1 : au.dropWhile p = d :: t := by
        simpa [List.dropWhile_cons, ha] using h
      obtain ⟨e1, e2⟩ := ih h1
      simp [List.takeWhile_cons, List.dropWhile_cons, ha, e1, e2]
    · have h1 : a :: au = d :: t := by
        simpa [List.dropWhile_cons, ha] using h
      injection h1 with hd ht
      subst hd
      subst ht
      constructor
      · simp [List.takeWhile_cons, ha]
      · simp [List.dropWhile_cons, ha]

theorem takeWhile_ext_of_all {p : Char → Bool} {u : List Char}
    (h : ∀ c ∈ u, p c = true) {c : Char} (hc : p c = false) (v : List Char) :
    (u ++ c :: v).takeWhile p = u ∧ (u ++ c :: v).dropWhile p = c :: v := by
  induction u with
  | nil => simp [List.takeWhile_cons, List.dropWhile_cons, hc]
  | cons a au ih =>
    have ha : p a = true := h a (List.mem_cons_self a au)
    obtain ⟨e1, e2⟩ := ih (fun x hx => h x (List.mem_cons_of_mem a hx))
    simp [List.takeWhile_cons, List.dropWhile_cons, ha, e1, e2]

theorem dropWhile_head_false {p : Char → Bool} :
    ∀ {u : List Char} {d : Char} {t : List Char},
      u.dropWhile p = d :: t → p d = false := by
  intro u
  induction u with
  | nil => intro d t h; simp [List.dropWhile] at h
  | cons a au ih =>
    intro d t h
    by_cases ha : p a
    · exact ih (by simpa [List.dropWhile_cons, ha] using h)
    · have h1 : a :: au = d :: t := by
        simpa [List.dropWhile_cons, ha] using h
      injection h1 with hd ht
      subst hd
      revert ha
      cases p a <;> simp

end StarRes

namespace StarRes

theorem matchAt_header {ds : List Char} (hne : ds ≠ [])
    (hdig : ∀ c ∈ ds, c.isDigit = true) :
    matchAt (hdrPre ++ ds ++ hdrSuf) = some (ds, []) := by
  have e1 : dropLit hdrPre (hdrPre ++ ds ++ hdrSuf) = some (ds ++ hdrSuf) := by
    rw [List.append_assoc]
    exact dropLit_of_append hdrPre (ds ++ hdrSuf)
  have hsuf : hdrSuf = '名' :: "搭配 ===".toList := by decide
  have hnd : Char.isDigit '名' = false := by decide
  obtain ⟨e2, e3⟩ := takeWhile_ext_of_all hdig hnd ("搭配 ===".toList)
  have hemp : ds.isEmpty = false := by
    rw [List.isEmpty_eq_false]
    exact hne
  have e4 : dropLit ('名' :: "搭配 ===".toList) ('名' :: "搭配 ===".toList)
      = some [] := by decide
  unfold matchAt
  rw [e1]
  simp only [hsuf, e2, e3, hemp, Bool.false_eq_true, if_false, e4]

theorem matchAt_ext_none {u : List Char} (h : matchAt u = none) (w : List Char) :
    matchAt (u ++ '\n' :: w) = none := by
  have hpre : ∀ c ∈ hdrPre, c ≠ '\n' := by decide
  have hsufc : ∀ c ∈ hdrSuf, c ≠ '\n' := by decide
  unfold matchAt at h ⊢
  cases h1 : dropLit hdrPre u with
  | none => rw [dropLit_none_ext hpre h1 w]
  | some s1 =>
    rw [h1] at h
    rw [dropLit_some_append h1 ('\n' :: w)]
    simp only at h ⊢
    cases h2 : s1.dropWhile Char.isDigit with
    | nil =>
      have hall : ∀ c ∈ s1, Char.isDigit c = true := by
        rw [← List.dropWhile_eq_nil_iff]
        exact h2
      have hnl : Char.isDigit '\n' = false := by decide
      obtain ⟨e1, e2⟩ := takeWhile_ext_of_all hall hnl w
      rw [e1, e2]
      have ht : s1.takeWhile Char.isDigit = s1 := by
        conv_rhs => rw [← List.takeWhile_append_dropWhile Char.isDigit s1, h2]
        rw [List.append_nil]
      rw [ht] at h
      by_cases he : s1.isEmpty
      · rw [if_pos he]
      · rw [if_neg he] at h ⊢
        have e4 : dropLit hdrSuf ('\n' :: w) = none := by
          have hh : hdrSuf = '名' :: "搭配 ===".toList := by decide
          rw [hh]
          simp [dropLit]
        rw [e4]
    | cons d t =>
      obtain ⟨e1, e2⟩ := takeWhile_ext_of_stop h2 ('\n' :: w)
      rw [e1, e2]
      rw [h2] at h
      by_cases he : (s1.takeWhile Char.isDigit).isEmpty
      · rw [if_pos he]
      · rw [if_neg he] at h ⊢
        cases h3 : dropLit hdrSuf (d :: t) with
        | none =>
          have e4 : dropLit hdrSuf ((d :: t) ++ '\n' :: w) = none :=
            dropLit_none_ext hsufc h3 w
          rw [e4]
        | some s3 =>
          rw [h3] at h
          exact absurd h (by simp)

theorem matchAt_ext_some {u ds r : List Char} (h : matchAt u = some (ds, r))
    (v : List Char) : matchAt (u ++ v) = some (ds, r ++ v) := by
  unfold matchAt at h ⊢
  cases h1 : dropLit hdrPre u with
  | none => rw [h1] at h; exact absurd h (by simp)
  | some s1 =>
    rw [h1] at h
    rw [dropLit_some_append h1 v]
    simp only at h ⊢
    by_cases he : (s1.takeWhile Char.isDigit).isEmpty
    · rw [if_pos he] at h; exact absurd h (by simp)
    · rw [if_neg he] at h
      cases h2 : dropLit hdrSuf (s1.dropWhile Char.isDigit) with
      | none => rw [h2] at h; exact absurd h (by simp)
      | some s3 =>
        rw [h2] at h
        simp only [Option.some.injEq, Prod.mk.injEq] at h
        obtain ⟨hds, hr⟩ := h
        have hshape : s1.dropWhile Char.isDigit = hdrSuf ++ s3 := dropLit_eq_append h2
        have hcons : s1.dropWhile Char.isDigit = '名' :: ("搭配 ===".toList ++ s3) := by
          rw [hshape]
          rfl
        obtain ⟨e1, e2⟩ := takeWhile_ext_of_stop hcons v
        rw [e1, if_neg he, e2]
        have e3 : dropLit hdrSuf (('名' :: ("搭配 ===".toList ++ s3)) ++ v)
            = some (s3 ++ v) := by
          have hassoc : ('名' :: ("搭配 ===".toList ++ s3)) ++ v
              = hdrSuf ++ (s3 ++ v) := by
            simp only [List.cons_append, List.append_assoc]
            rfl
          rw [hassoc]
          exact dropLit_of_append hdrSuf (s3 ++ v)
        rw [e3, hds, hr]

end StarRes

namespace StarRes

theorem findMatch_of_matchAt {c : Char} {cs ds r : List Char}
    (h : matchAt (c :: cs) = some (ds, r)) :
    findMatch (c :: cs) = some ([], ds, r) := by
  unfold findMatch
  rw [h]

theorem findMatch_header {ds : List Char} (hne : ds ≠ [])
    (hdig : ∀ c ∈ ds, c.isDigit = true) :
    findMatch (hdrPre ++ ds ++ hdrSuf) = some ([], ds, []) := by
  have hm : matchAt ('=' :: ("== 第".toList ++ ds ++ hdrSuf)) = some (ds, []) := by
    have e : hdrPre ++ ds ++ hdrSuf = '=' :: ("== 第".toList ++ ds ++ hdrSuf) := by
      show ('=' :: "== 第".toList) ++ ds ++ hdrSuf = _
      simp
    rw [← e]
    exact matchAt_header hne hdig
  exact findMatch_of_matchAt hm

theorem findMatch_ext_some : ∀ {s b ds r : List Char},
    findMatch s = some (b, ds, r) → ∀ w : List Char,
      findMatch (s ++ '\n' :: w) = some (b, ds, r ++ '\n' :: w) := by
  intro s
  induction s with
  | nil => intro b ds r h w; simp [findMatch] at h
  | cons c cs ih =>
    intro b ds r h w
    unfold findMatch at h
    show findMatch (c :: (cs ++ '\n' :: w)) = _
    unfold findMatch
    cases hm : matchAt (c :: cs) with
    | some p =>
      obtain ⟨ds0, r0⟩ := p
      rw [hm] at h
      simp only [Option.some.injEq, Prod.mk.injEq] at h
      obtain ⟨hb, hds, hr⟩ := h
      have hm2 : matchAt (c :: (cs ++ '\n' :: w)) = some (ds0, r0 ++ '\n' :: w) :=
        matchAt_ext_some hm ('\n' :: w)
      rw [hm2, ← hb, ← hds, ← hr]
    | none =>
      rw [hm] at h
      have hm2 : matchAt (c :: (cs ++ '\n' :: w)) = none :=
        matchAt_ext_none hm w
      rw [hm2]
      cases hf : findMatch cs with
      | none => rw [hf] at h; exact absurd h (by simp)
      | some q =>
        obtain ⟨b0, ds0, r0⟩ := q
        rw [hf] at h
        simp only [Option.some.injEq, Prod.mk.injEq] at h
        obtain ⟨hb, hds, hr⟩ := h
        rw [ih hf w, ← hb, ← hds, ← hr]

theorem findMatch_header_at_end {ds : List Char} (hne : ds ≠ [])
    (hdig : ∀ c ∈ ds, c.isDigit = true) :
    ∀ s : List Char, findMatch s = none →
      findMatch (s ++ '\n' :: (hdrPre ++ ds ++ hdrSuf)) =
        some (s ++ ['\n'], ds, []) := by
  have hhdr := findMatch_header hne hdig
  intro s
  induction s with
  | nil =>
    intro _
    have hm : matchAt ('\n' :: (hdrPre ++ ds ++ hdrSuf)) = none := by
      unfold matchAt
      have e : dropLit hdrPre ('\n' :: (hdrPre ++ ds ++ hdrSuf)) = none := by
        have h0 : hdrPre = '=' :: "== 第".toList := by decide
        rw [h0]
        simp only [dropLit]
        rw [if_neg (by decide)]
      rw [e]
    show findMatch ('\n' :: (hdrPre ++ ds ++ hdrSuf)) = _
    unfold findMatch
    rw [hm, hhdr]
    rfl
  | cons c cs ih =>
    intro h
    unfold findMatch at h
    cases hm : matchAt (c :: cs) with
    | some p =>
      obtain ⟨ds0, r0⟩ := p
      rw [hm] at h
      exact absurd h (by simp)
    | none =>
      rw [hm] at h
      have hf : findMatch cs = none := by
        cases hf : findMatch cs with
        | none => rfl
        | some q =>
          obtain ⟨b0, ds0, r0⟩ := q
          rw [hf] at h
          exact absurd h (by simp)
      have hm2 : matchAt (c :: (cs ++ '\n' :: (hdrPre ++ ds ++ hdrSuf))) = none :=
        matchAt_ext_none hm _
      have ih2 := ih hf
      show findMatch (c :: (cs ++ '\n' :: (hdrPre ++ ds ++ hdrSuf))) = _
      unfold findMatch
      rw [hm2, ih2]
      rfl

theorem reSplitF_nil : ∀ f : Nat, reSplitF f [] = [[]]
  | 0 => rfl
  | _ + 1 => rfl

theorem reSplitF_succ_of_some {f : Nat} {s b ds1 rest : List Char}
    (h : findMatch s = some (b, ds1, rest)) :
    reSplitF (f + 1) s = b :: ds1 :: reSplitF f rest := by
  conv_lhs => unfold reSplitF
  rw [h]

theorem reSplitF_trailing_header {ds : List Char} (hne : ds ≠ [])
    (hdig : ∀ c ∈ ds, c.isDigit = true) :
    ∀ (fuel : Nat) (s : List Char),
      (s ++ '\n' :: (hdrPre ++ ds ++ hdrSuf)).length < fuel →
      ∃ ps, reSplitF fuel (s ++ '\n' :: (hdrPre ++ ds ++ hdrSuf)) = ps ++ [ds, []] ∧
        ps ≠ [] ∧ ps.length % 2 = 1 := by
  intro fuel
  induction fuel with
  | zero => intro s h; exact absurd h (by omega)
  | succ f ih =>
    intro s hlen
    cases hf : findMatch s with
    | none =>
      rw [reSplitF_succ_of_some (findMatch_header_at_end hne hdig s hf),
        reSplitF_nil f]
      exact ⟨[s ++ ['\n']], by simp, by simp, by simp⟩
    | some p =>
      obtain ⟨b, ds0, r⟩ := p
      rw [reSplitF_succ_of_some (findMatch_ext_some hf (hdrPre ++ ds ++ hdrSuf))]
      have hlt := findMatch_length hf
      obtain ⟨ps, hps, hpne, hpodd⟩ := ih r (by
        simp only [List.length_append, List.length_cons] at hlen ⊢
        omega)
      refine ⟨b :: ds0 :: ps, ?_, by simp, ?_⟩
      · rw [hps]
        simp
      · simp only [List.length_cons]
        omega

theorem joinNl_append_singleton : ∀ (fs : List (List Char)) (h : List Char),
    fs ≠ [] → joinNl (fs ++ [h]) = joinNl fs ++ '\n' :: h
  | [], _, hne => absurd rfl hne
  | [x], h, _ => by simp [joinNl]
  | x :: y :: t, h, _ => by
    have ih := joinNl_append_singleton (y :: t) h (by simp)
    show joinNl (x :: ((y :: t) ++ [h])) = _
    rw [show joinNl (x :: ((y :: t) ++ [h]))
        = x ++ '\n' :: joinNl ((y :: t) ++ [h]) from rfl, ih]
    simp [joinNl]

theorem combosOfRest_append_pair : ∀ l : List (List Char), l.length % 2 = 0 →
    ∀ c b : List Char, ∃ cs, combosOfRest l = Except.ok cs ∧
      combosOfRest (l ++ [c, b]) = Except.ok (cs ++ [parse_block b])
  | [], _, c, b => ⟨[], rfl, by simp [combosOfRest, Except.map]⟩
  | [_], h, _, _ => by simp at h
  | x :: y :: r, h, c, b => by
    obtain ⟨cs, h1, h2⟩ := combosOfRest_append_pair r
      (by simp only [List.length_cons] at h; omega) c b
    refine ⟨parse_block y :: cs, ?_, ?_⟩
    · simp [combosOfRest, h1, Except.map]
    · show combosOfRest (x :: y :: (r ++ [c, b])) = _
      simp [combosOfRest, h2, Except.map]

end StarRes

namespace StarRes

theorem parse_block_nil : parse_block [] = emptyCombo := by decide

theorem parseBlockGo_no_total_power :
    ∀ lines : List (List Char),
      (∀ l ∈ lines, totalMark.isPrefixOf (stripChars l) = false ∧
        powerMark.isPrefixOf (stripChars l) = false) →
      ∀ (m : PMode) (acc : Combo),
        (parseBlockGo m lines acc).total = acc.total ∧
        (parseBlockGo m lines acc).power = acc.power
  | [], _, m, acc => by cases m <;> exact ⟨rfl, rfl⟩
  | l :: rest, h, m, acc => by
    have hl := h l (List.mem_cons_self l rest)
    have hr : ∀ x ∈ rest, totalMark.isPrefixOf (stripChars x) = false ∧
        powerMark.isPrefixOf (stripChars x) = false :=
      fun x hx => h x (List.mem_cons_of_mem l hx)
    have ih := parseBlockGo_no_total_power rest hr
    cases m with
    | seek =>
      simp only [parseBlockGo, hl.1, hl.2, Bool.false_eq_true, if_false]
      split_ifs
      · exact ih PMode.inMods acc
      · exact ⟨rfl, rfl⟩
      · exact ih PMode.seek acc
    | inMods =>
      simp only [parseBlockGo, hl.1, hl.2, Bool.false_eq_true, if_false]
      split_ifs
      · exact ih PMode.inMods acc
      · exact ⟨rfl, rfl⟩
      · exact ih PMode.seek acc
      · exact ih PMode.inMods ⟨acc.total, acc.power,
          acc.modules ++ [stripChars l], acc.attrs⟩

/-- C10: two safety facts about degenerate blocks.  First, whenever the last
line surviving the pre-filter is a bare block header, the split still yields
a trailing empty block and the parse ends with the all-empty record instead
of failing on an out-of-bounds access.  Second, a block containing no
total-attribute and no combat-power marker line keeps both fields as the
empty string, never an error. -/
theorem trailing_header_yields_empty_record :
    (∀ (ls fs : List (List Char)) (ds : List Char), ds ≠ [] →
      (∀ c ∈ ds, c.isDigit = true) →
      preFilter ls = fs ++ [hdrPre ++ ds ++ hdrSuf] →
      ∃ pre, parseLogLines ls = pre ++ [emptyCombo]) ∧
    (∀ block : List Char,
      (∀ l ∈ (splitNl block).filter (fun l => !(stripChars l).isEmpty),
        totalMark.isPrefixOf (stripChars l) = false ∧
        powerMark.isPrefixOf (stripChars l) = false) →
      (parse_block block).total = [] ∧ (parse_block block).power = []) := by
  constructor
  · intro ls fs ds hne hdig hpf
    cases fs with
    | nil =>
      have hj : joinNl (preFilter ls) = hdrPre ++ ds ++ hdrSuf := by
        rw [hpf]
        rfl
      refine ⟨[], ?_⟩
      unfold parseLogLines
      rw [hj]
      unfold reSplit
      rw [reSplitF_succ_of_some (findMatch_header hne hdig), reSplitF_nil]
      simp [combosFromParts, combosOfRest, Except.map, parse_block_nil]
    | cons f0 fs2 =>
      have hj : joinNl (preFilter ls)
          = joinNl (f0 :: fs2) ++ '\n' :: (hdrPre ++ ds ++ hdrSuf) := by
        rw [hpf]
        exact joinNl_append_singleton (f0 :: fs2) _ (by simp)
      obtain ⟨ps, hps, hpne, hpodd⟩ := reSplitF_trailing_header hne hdig
        ((joinNl (f0 :: fs2) ++ '\n' :: (hdrPre ++ ds ++ hdrSuf)).length + 1)
        (joinNl (f0 :: fs2)) (by omega)
      cases ps with
      | nil => exact absurd rfl hpne
      | cons p0 ps2 =>
        have hev : ps2.length % 2 = 0 := by
          simp only [List.length_cons] at hpodd
          omega
        obtain ⟨cs, hc1, hc2⟩ := combosOfRest_append_pair ps2 hev ds []
        refine ⟨cs, ?_⟩
        unfold parseLogLines
        rw [hj]
        unfold reSplit
        rw [hps]
        unfold combosFromParts
        have htail : ((p0 :: ps2) ++ [ds, []]).tail = ps2 ++ [ds, []] := rfl
        rw [htail, hc2, parse_block_nil]
  · intro block h
    exact parseBlockGo_no_total_power _ h PMode.seek emptyCombo

/-- Witness for the degenerate-block theorem: a log consisting of a single
header line parses to exactly the empty record, and a block of one plain
line has empty total and power. -/
theorem trailing_header_yields_empty_record_witness :
    (∃ pre, parseLogLines ["=== 第1名搭配 ===".toList] = pre ++ [emptyCombo]) ∧
    ((parse_block "帽子A".toList).total = [] ∧
      (parse_block "帽子A".toList).power = []) :=
  ⟨trailing_header_yields_empty_record.1 ["=== 第1名搭配 ===".toList] [] ['1']
      (by decide) (by decide) (by decide),
    trailing_header_yields_empty_record.2 "帽子A".toList (by decide)⟩

end StarRes

namespace StarRes

/-! ### Decimal printing round trip -/

theorem digitChar_isDigit (d : Nat) : (digitChar d).isDigit = true := by
  unfold digitChar
  split <;> decide

theorem digitChar_lt128 (d : Nat) : (digitChar d).toNat < 128 := by
  unfold digitChar
  split <;> decide

theorem digitChar_toNat (d : Nat) (h : d < 10) : (digitChar d).toNat = 48 + d := by
  interval_cases d <;> decide

theorem natToDecAux_lt128 : ∀ (f n : Nat), ∀ c ∈ natToDecAux f n, c.toNat < 128 := by
  intro f
  induction f with
  | zero => intro n c hc; simp [natToDecAux] at hc
  | succ f ih =>
    intro n c hc
    unfold natToDecAux at hc
    by_cases hn : n < 10
    · rw [if_pos hn] at hc
      simp only [List.mem_singleton] at hc
      rw [hc]
      exact digitChar_lt128 n
    · rw [if_neg hn] at hc
      rw [List.mem_append] at hc
      rcases hc with hc | hc
      · exact ih (n / 10) c hc
      · simp only [List.mem_singleton] at hc
        rw [hc]
        exact digitChar_lt128 _

theorem natToDecAux_digits : ∀ (f n : Nat), ∀ c ∈ natToDecAux f n,
    c.isDigit = true := by
  intro f
  induction f with
  | zero => intro n c hc; simp [natToDecAux] at hc
  | succ f ih =>
    intro n c hc
    unfold natToDecAux at hc
    by_cases hn : n < 10
    · rw [if_pos hn] at hc
      simp only [List.mem_singleton] at hc
      rw [hc]
      exact digitChar_isDigit n
    · rw [if_neg hn] at hc
      rw [List.mem_append] at hc
      rcases hc with hc | hc
      · exact ih (n / 10) c hc
      · simp only [List.mem_singleton] at hc
        rw [hc]
        exact digitChar_isDigit _

theorem natToDec_ne_nil (n : Nat) : natToDec n ≠ [] := by
  unfold natToDec natToDecAux
  split <;> simp

theorem decFold_natToDecAux : ∀ (f n acc : Nat), n < f →
    List.foldl (fun a c => a * 10 + (c.toNat - 48)) acc (natToDecAux f n)
      = acc * 10 ^ (natToDecAux f n).length + n := by
  intro f
  induction f with
  | zero => intro n acc h; exact absurd h (by omega)
  | succ f ih =>
    intro n acc h
    unfold natToDecAux
    by_cases hn : n < 10
    · rw [if_pos hn]
      simp only [List.foldl_cons, List.foldl_nil, List.length_cons,
        List.length_nil, pow_one, pow_zero]
      rw [digitChar_toNat n hn]
      omega
    · rw [if_neg hn]
      rw [List.foldl_append]
      have h10 : n / 10 < f := by omega
      rw [ih (n / 10) acc h10]
      simp only [List.foldl_cons, List.foldl_nil, List.length_append,
        List.length_cons, List.length_nil]
      rw [digitChar_toNat (n % 10) (by omega)]
      have hpow : 10 ^ ((natToDecAux f (n / 10)).length + (0 + 1))
          = 10 ^ (natToDecAux f (n / 10)).length * 10 := by
        rw [Nat.zero_add, pow_succ]
      rw [hpow]
      have hdm : 10 * (n / 10) + n % 10 = n := Nat.div_add_mod n 10
      have hcancel : 48 + n % 10 - 48 = n % 10 := by omega
      rw [hcancel, Nat.add_mul, Nat.mul_assoc]
      omega

theorem decToNat_natToDec (n : Nat) : decToNat (natToDec n) = n := by
  unfold decToNat natToDec
  rw [decFold_natToDecAux (n + 1) n 0 (by omega)]
  simp

end StarRes

namespace StarRes

/-! ### Correctness of the modelled JSON path on the canonical encoding -/

theorem parseFields_cons_field (f : Nat) (key ds0 tail : List Char)
    (hkey : ∀ c ∈ key, (c != '"') = true)
    (hds : ds0 ≠ []) (hdig : ∀ c ∈ ds0, c.isDigit = true) :
    parseFields (f + 1)
        ('"' :: (key ++ '"' :: ':' :: ' ' :: (ds0 ++ ',' :: ' ' :: tail)))
      = (parseFields f tail).map (fun fs => (key, decToNat ds0) :: fs) := by
  obtain ⟨e1, e2⟩ := takeWhile_ext_of_all hkey
    (by decide : (('"' : Char) != '"') = false)
    (':' :: ' ' :: (ds0 ++ ',' :: ' ' :: tail))
  obtain ⟨e3, e4⟩ := takeWhile_ext_of_all hdig
    (by decide : Char.isDigit ',' = false) (' ' :: tail)
  have hemp : ds0.isEmpty = false := by
    rw [List.isEmpty_eq_false]
    exact hds
  simp only [parseFields, e1, e2, e3, e4, hemp, Bool.false_eq_true, if_false]

theorem parseFields_last_field (f : Nat) (key ds0 : List Char)
    (hkey : ∀ c ∈ key, (c != '"') = true)
    (hds : ds0 ≠ []) (hdig : ∀ c ∈ ds0, c.isDigit = true) :
    parseFields (f + 1) ('"' :: (key ++ '"' :: ':' :: ' ' :: (ds0 ++ [rbraceChar])))
      = some [(key, decToNat ds0)] := by
  obtain ⟨e1, e2⟩ := takeWhile_ext_of_all hkey
    (by decide : (('"' : Char) != '"') = false)
    (':' :: ' ' :: (ds0 ++ [rbraceChar]))
  obtain ⟨e3, e4⟩ := takeWhile_ext_of_all hdig
    (by decide : Char.isDigit rbraceChar = false) ([] : List Char)
  have hemp : ds0.isEmpty = false := by
    rw [List.isEmpty_eq_false]
    exact hds
  simp only [parseFields, e1, e2, e3, e4, hemp, Bool.false_eq_true, if_false]
  simp

theorem jsonLoadsC_encode (r : CharSerialize) :
    jsonLoadsC (jsonEncode r)
      = some [(keyA, r.charId), (keyB, r.level)] := by
  have hkeyA : ∀ c ∈ keyA, (c != '"') = true := by decide
  have hkeyB : ∀ c ∈ keyB, (c != '"') = true := by decide
  have hr0 : jsonEncode r = lbraceChar ::
      ('"' :: (keyA ++ '"' :: ':' :: ' ' :: (natToDec r.charId ++ ',' :: ' ' ::
        ('"' :: (keyB ++ '"' :: ':' :: ' ' :: (natToDec r.level ++ [rbraceChar])))))) := by
    simp [jsonEncode, List.append_assoc]
  rw [hr0]
  simp only [jsonLoadsC]
  rw [if_pos trivial]
  rw [List.length_cons]
  rw [parseFields_cons_field _ keyA (natToDec r.charId) _ hkeyA
    (natToDec_ne_nil _) (natToDecAux_digits _ _)]
  have hlen : ((keyA ++ '"' :: ':' :: ' ' :: (natToDec r.charId ++ ',' :: ' ' ::
      ('"' :: (keyB ++ '"' :: ':' :: ' ' :: (natToDec r.level ++ [rbraceChar]))))) : List Char).length
      = ((keyA ++ '"' :: ':' :: ' ' :: (natToDec r.charId ++ ',' :: ' ' ::
      ('"' :: (keyB ++ '"' :: ':' :: ' ' :: (natToDec r.level ++ [rbraceChar])))))).length - 1 + 1 := by
    simp [keyA]
  rw [hlen]
  rw [parseFields_last_field _ keyB (natToDec r.level) hkeyB
    (natToDec_ne_nil _) (natToDecAux_digits _ _)]
  rw [decToNat_natToDec, decToNat_natToDec]
  rfl

end StarRes

namespace StarRes

theorem forall_lt128_append {l1 l2 : List Char} (h1 : ∀ c ∈ l1, c.toNat < 128)
    (h2 : ∀ c ∈ l2, c.toNat < 128) : ∀ c ∈ l1 ++ l2, c.toNat < 128 := by
  intro c hc
  rw [List.mem_append] at hc
  rcases hc with hc | hc
  · exact h1 c hc
  · exact h2 c hc

theorem forall_lt128_cons {a : Char} {l : List Char} (h : a.toNat < 128)
    (hl : ∀ c ∈ l, c.toNat < 128) : ∀ c ∈ a :: l, c.toNat < 128 := by
  intro c hc
  rw [List.mem_cons] at hc
  rcases hc with rfl | hc
  · exact h
  · exact hl c hc

theorem jsonEncode_ascii (r : CharSerialize) : ∀ c ∈ jsonEncode r, c.toNat < 128 := by
  unfold jsonEncode
  refine forall_lt128_append ?_ (by decide)
  refine forall_lt128_append ?_ ?_
  · refine forall_lt128_append ?_ (by decide)
    refine forall_lt128_append (by decide) ?_
    exact forall_lt128_cons (by decide) (forall_lt128_cons (by decide)
      (forall_lt128_cons (by decide) (natToDecAux_lt128 _ _)))
  · exact forall_lt128_cons (by decide) (forall_lt128_cons (by decide)
      (forall_lt128_cons (by decide) (natToDecAux_lt128 _ _)))

theorem asciiDecode_bytes {s : List Char} (h : ∀ c ∈ s, c.toNat < 128) :
    asciiDecode (asciiBytes s) = some s := by
  unfold asciiDecode asciiBytes
  have hall : ((s.map Char.toNat).all fun b => decide (b < 128)) = true := by
    rw [List.all_eq_true]
    intro x hx
    rw [List.mem_map] at hx
    obtain ⟨c, hc, rfl⟩ := hx
    exact decide_eq_true (h c hc)
  rw [if_pos hall, List.map_map]
  have hmap : (Char.ofNat ∘ Char.toNat) = id := by
    funext c
    exact Char.ofNat_toNat c
  rw [hmap, List.map_id]

theorem stripChars_sandwich {a b : Char} (ha : a.isWhitespace = false)
    (hb : b.isWhitespace = false) (m : List Char) :
    stripChars (a :: (m ++ [b])) = a :: (m ++ [b]) := by
  unfold stripChars
  have d1 : List.dropWhile Char.isWhitespace (a :: (m ++ [b])) = a :: (m ++ [b]) := by
    simp [List.dropWhile_cons, ha]
  rw [d1]
  have r1 : (a :: (m ++ [b])).reverse = b :: (m.reverse ++ [a]) := by
    simp
  rw [r1]
  have d2 : List.dropWhile Char.isWhitespace (b :: (m.reverse ++ [a]))
      = b :: (m.reverse ++ [a]) := by
    simp [List.dropWhile_cons, hb]
  rw [d2]
  simp

theorem wrapper_fails_on_json (r : CharSerialize) :
    parseWrapperBinC (asciiBytes (jsonEncode r)) = none := by
  obtain ⟨tl, htl⟩ : ∃ tl, jsonEncode r = lbraceChar :: tl := ⟨_, rfl⟩
  rw [htl]
  unfold asciiBytes
  rw [List.map_cons]
  simp only [parseWrapperBinC]
  rw [if_neg (by decide)]

theorem direct_fails_on_json (r : CharSerialize) :
    parseDirectBinC (asciiBytes (jsonEncode r)) = none := by
  obtain ⟨tl, htl⟩ : ∃ tl, jsonEncode r = lbraceChar :: tl := ⟨_, rfl⟩
  rw [htl]
  unfold asciiBytes
  rw [List.map_cons]
  simp only [parseDirectBinC]
  rw [if_neg (by decide)]

theorem b64_fails_on_json (r : CharSerialize) :
    b64Quads (jsonEncode r) = none := by
  obtain ⟨tl, htl⟩ : ∃ tl, jsonEncode r = lbraceChar :: '"' :: 'c' :: 'h' :: tl :=
    ⟨_, rfl⟩
  have hb : b64Val lbraceChar = none := by decide
  rw [htl]
  simp [b64Quads, hb]

theorem jsonAsDirectC_pair (a b : Nat) :
    jsonAsDirectC [(keyA, a), (keyB, b)] = some ⟨a, b⟩ := by
  simp [jsonAsDirectC]

/-- C8: round trip through the JSON path.  For every direct-schema record,
running the decode cascade on the bytes of its canonical JSON encoding
succeeds and yields the record back field for field: both binary attempts
fail on the JSON bytes, UTF-8 decoding recovers the text, strict base64
rejects it, and the JSON attempt parses it as the direct schema. -/
theorem json_roundtrip (r : CharSerialize) :
    load_vdata_from_file concreteOps (asciiBytes (jsonEncode r)) = Except.ok r := by
  have e1 := wrapper_fails_on_json r
  have e2 := direct_fails_on_json r
  have e3 : asciiDecode (asciiBytes (jsonEncode r)) = some (jsonEncode r) :=
    asciiDecode_bytes (jsonEncode_ascii r)
  have hshape : jsonEncode r = lbraceChar ::
      (('"' :: keyA ++ '"' :: ':' :: ' ' :: natToDec r.charId ++
        ',' :: ' ' :: '"' :: keyB ++ '"' :: ':' :: ' ' :: natToDec r.level)
        ++ [rbraceChar]) := by
    simp [jsonEncode, List.append_assoc]
  have e4 : stripChars (jsonEncode r) = jsonEncode r := by
    rw [hshape]
    exact stripChars_sandwich (by decide) (by decide) _
  have e5 := b64_fails_on_json r
  have e6 := jsonLoadsC_encode r
  have e7 : jsonAsDirectC [(keyA, r.charId), (keyB, r.level)] = some r := by
    rw [jsonAsDirectC_pair]
  simp only [load_vdata_from_file, concreteOps, e1, e2, e3, e4, e5, e6, e7]

end StarRes
